import Mathlib

/-!
# Verification of the diffwatch change-reconciliation engine

A shallow embedding of the git-utility module (`src/utils/git.ts`) and the
relevant state logic of the `App` component, together with proofs of the
specified properties.  External collaborators (simple-git status/log/grep,
the filesystem stat provider, the `path` module) are modelled as injected
functions or `Except`-valued results, mirroring the dependency-injection
structure of the source.
-/

/-- The closed status enumeration of `FileStatus['status']` in `git.ts`. -/
inductive StatusKind where
  | modified
  | new
  | deleted
  | renamed
  | unknown
  | unstaged
  | unchanged
  | ignored
deriving DecidableEq, Repr

/-- One enriched file record (`FileStatus` in `git.ts`); `mtime` is the
JS `Date` value in milliseconds since the epoch (`new Date(0)` is `0`). -/
structure FileStatus where
  path : String
  status : StatusKind
  mtime : Int
deriving DecidableEq, Repr

/-- A raw status entry from the status provider: `{path, index, working_dir}`
as produced by simple-git in `status.files`. -/
structure RawFile where
  index : String
  working_dir : String
  path : String
deriving DecidableEq, Repr

/-- A rename pair from `status.renamed`. -/
structure RenamePair where
  from_ : String
  to_ : String
deriving DecidableEq, Repr

/-- The raw status report consumed by `getChangedFiles`: `files` is `some`
when `status.files` is a usable array (the flag-tuple path), `none` for the
flat-list fallback path. -/
structure StatusReport where
  files : Option (List RawFile)
  modified : List String
  staged : List String
  not_added : List String
  deleted : List String
  renamed : List RenamePair
deriving Repr

/-- The closure state of `getChangedFiles`: the `uniquePaths` set and the
accumulated `fileList`. -/
structure NormState where
  uniquePaths : List String
  fileList : List FileStatus
deriving Repr

/-- `addFileIfUnique` from `git.ts` (lines 50-59): push a record with
`mtime = new Date(0)` unless the path was already seen. -/
def addFileIfUnique (st : NormState) (filePath : String) (fileStatus : StatusKind) :
    NormState :=
  if filePath ∈ st.uniquePaths then st
  else ⟨filePath :: st.uniquePaths, st.fileList ++ [⟨filePath, fileStatus, 0⟩]⟩

/-- JS `String.prototype.includes` with a single-character needle, as used
for the compound status flags (`indexStatus.includes('D')` etc.). -/
def jsIncludes (s : String) (c : Char) : Bool :=
  s.data.contains c

/-- The per-entry status resolution of the `status.files.forEach` body in
`getChangedFiles` (git.ts lines 64-100).  `file.index || ' '` and
`file.working_dir || ' '` are modelled by replacing the empty string with
`" "` (the only falsy value of a JS string is the empty string). -/
def resolveStatus (renamed : List RenamePair) (file : RawFile) : Option StatusKind :=
  let indexStatus := if file.index = "" then " " else file.index
  let workingDirStatus := if file.working_dir = "" then " " else file.working_dir
  if renamed.any fun r => r.to_ == file.path || r.from_ == file.path then
    some .renamed
  else if jsIncludes indexStatus 'D' || jsIncludes workingDirStatus 'D' then
    some .deleted
  else if indexStatus == "?" && workingDirStatus == "?" then
    some .new
  else if jsIncludes indexStatus 'A' && indexStatus != "?" then
    some .modified
  else if (indexStatus == " " || indexStatus == "M") &&
      (workingDirStatus == "M" || jsIncludes workingDirStatus 'M') then
    some .unstaged
  else
    none

/-- Spec-side resolution, written out from the claimed fixed priority order
(spec section 4.1), on the raw un-normalized flags; an empty index flag is
either the empty string or the single blank the status provider uses for
an unset slot.  Used only to be compared with `resolveStatus`. -/
def specResolveStatus (renameList : List RenamePair) (entry : RawFile) : Option StatusKind :=
  if renameList.any fun r => r.to_ == entry.path || r.from_ == entry.path then
    some .renamed
  else if jsIncludes entry.index 'D' || jsIncludes entry.working_dir 'D' then
    some .deleted
  else if entry.index == "?" && entry.working_dir == "?" then
    some .new
  else if jsIncludes entry.index 'A' && entry.index != "?" then
    some .modified
  else if ((entry.index == "" || entry.index == " ") || entry.index == "M") &&
      (entry.working_dir == "M" || jsIncludes entry.working_dir 'M') then
    some .unstaged
  else
    none

/-- The `status.files.forEach` loop of `getChangedFiles` (flag-tuple path). -/
def processStatusFiles (renamed : List RenamePair) (files : List RawFile)
    (st : NormState) : NormState :=
  files.foldl (fun st file =>
    match resolveStatus renamed file with
    | some k => addFileIfUnique st file.path k
    | none => st) st

/-- The flat-list fallback path of `getChangedFiles` (git.ts lines 102-128):
modified, staged, not_added, deleted, then renamed, in source order. -/
def processFallback (modified staged not_added deleted : List String)
    (renamed : List RenamePair) (st : NormState) : NormState :=
  let st1 := modified.foldl (fun st p => addFileIfUnique st p .unstaged) st
  let st2 := staged.foldl (fun st p => addFileIfUnique st p .modified) st1
  let st3 := not_added.foldl (fun st p => addFileIfUnique st p .new) st2
  let st4 := deleted.foldl (fun st p => addFileIfUnique st p .deleted) st3
  renamed.foldl (fun st r => addFileIfUnique st r.to_ .renamed) st4

/-- The normalization phase of `getChangedFiles`: build the deduplicated
file list from the status report (before metadata enrichment). -/
def normalizeStatus (status : StatusReport) : List FileStatus :=
  (match status.files with
   | some files => processStatusFiles status.renamed files ⟨[], []⟩
   | none =>
     processFallback status.modified status.staged status.not_added
       status.deleted status.renamed ⟨[], []⟩).fileList

/-- The sequence of (path, statusKind) pairs of the raw entries that
resolve to a status, in processing order — the abstract input of the
first-write-wins deduplication. -/
def rawPairs (status : StatusReport) : List (String × StatusKind) :=
  match status.files with
  | some files =>
    files.filterMap fun f => (resolveStatus status.renamed f).map fun k => (f.path, k)
  | none =>
    status.modified.map (fun p => (p, .unstaged))
      ++ status.staged.map (fun p => (p, .modified))
      ++ status.not_added.map (fun p => (p, .new))
      ++ status.deleted.map (fun p => (p, .deleted))
      ++ status.renamed.map (fun r => (r.to_, .renamed))

/-- First-write-wins deduplication over a pair sequence, the common core of
both normalization paths. -/
def dedupFirst (st : NormState) (pairs : List (String × StatusKind)) : NormState :=
  pairs.foldl (fun st q => addFileIfUnique st q.1 q.2) st

/-- C1: the statusKind assigned by the flag-tuple path of `getChangedFiles`
follows the claimed fixed priority order (rename, deleted, new, staged-A,
unstaged, drop), and in particular a path in the rename list (as `to_` or
as `from_`) is classified `renamed` whatever its flags are. -/
theorem c1_status_priority :
    (∀ (renames : List RenamePair) (entry : RawFile),
      resolveStatus renames entry = specResolveStatus renames entry)
    ∧ (∀ (p fr idx wflag : String),
        resolveStatus [⟨fr, p⟩] ⟨idx, wflag, p⟩ = some StatusKind.renamed)
    ∧ (∀ (p t idx wflag : String),
        resolveStatus [⟨p, t⟩] ⟨idx, wflag, p⟩ = some StatusKind.renamed) := by
  refine ⟨fun renames entry => ?_, fun p fr idx wflag => ?_, fun p t idx wflag => ?_⟩
  · obtain ⟨idx, w, p⟩ := entry
    by_cases hi : idx = "" <;> by_cases hw : w = "" <;>
      simp_all [resolveStatus, specResolveStatus, jsIncludes,
        beq_eq_false_iff_ne, String.ext_iff]
  · simp [resolveStatus]
  · simp [resolveStatus]

lemma processStatusFiles_eq_dedupFirst (renamed : List RenamePair)
    (files : List RawFile) (st : NormState) :
    processStatusFiles renamed files st
      = dedupFirst st
          (files.filterMap fun f => (resolveStatus renamed f).map fun k => (f.path, k)) := by
  induction files generalizing st with
  | nil => rfl
  | cons f fs ih =>
    cases h : resolveStatus renamed f <;>
      simp only [processStatusFiles, List.foldl_cons, List.filterMap_cons, h,
        Option.map_some, Option.map_none, dedupFirst] <;>
      exact ih _

lemma processFallback_eq_dedupFirst (m s n d : List String) (r : List RenamePair)
    (st : NormState) :
    processFallback m s n d r st
      = dedupFirst st (m.map (fun p => (p, .unstaged)) ++ s.map (fun p => (p, .modified))
          ++ n.map (fun p => (p, .new)) ++ d.map (fun p => (p, .deleted))
          ++ r.map (fun rn => (rn.to_, .renamed))) := by
  simp [processFallback, dedupFirst, List.foldl_append, List.foldl_map]

lemma normalizeStatus_eq_dedupFirst (status : StatusReport) :
    normalizeStatus status = (dedupFirst ⟨[], []⟩ (rawPairs status)).fileList := by
  unfold normalizeStatus rawPairs
  cases status.files <;>
    simp [processStatusFiles_eq_dedupFirst, processFallback_eq_dedupFirst]

/-- The `uniquePaths`/`fileList` consistency invariant of the dedup state. -/
def NormInv (st : NormState) : Prop :=
  (st.fileList.map (fun f => f.path)).Nodup
    ∧ ∀ p ∈ st.fileList.map (fun f => f.path), p ∈ st.uniquePaths

lemma normInv_addFileIfUnique (st : NormState) (p : String) (k : StatusKind)
    (h : NormInv st) : NormInv (addFileIfUnique st p k) := by
  obtain ⟨h1, h2⟩ := h
  unfold addFileIfUnique
  split
  · exact ⟨h1, h2⟩
  · rename_i hp
    refine ⟨?_, ?_⟩
    · simp only [List.map_append, List.map_cons, List.map_nil]
      refine List.Nodup.append h1 (List.nodup_singleton p) ?_
      intro q hq hq'
      simp only [List.mem_singleton] at hq'
      exact hp (hq' ▸ h2 q hq)
    · intro q hq
      simp only [List.map_append, List.map_cons, List.map_nil, List.mem_append,
        List.mem_singleton] at hq
      rcases hq with hq | hq
      · exact List.mem_cons_of_mem _ (h2 q hq)
      · exact hq ▸ List.mem_cons_self _ _

lemma normInv_dedupFirst (pairs : List (String × StatusKind)) (st : NormState)
    (h : NormInv st) : NormInv (dedupFirst st pairs) := by
  induction pairs generalizing st with
  | nil => exact h
  | cons q rest ih =>
    exact ih _ (normInv_addFileIfUnique st q.1 q.2 h)

/-- Membership in the deduplicated file list: a record is either an initial
one, or the first pair of the input whose path was not already seen. -/
lemma dedupFirst_mem_iff (pairs : List (String × StatusKind)) :
    ∀ (st : NormState) (rec : FileStatus),
      rec ∈ (dedupFirst st pairs).fileList
        ↔ rec ∈ st.fileList
          ∨ (rec.path ∉ st.uniquePaths
             ∧ pairs.find? (fun q => q.1 == rec.path) = some (rec.path, rec.status)
             ∧ rec.mtime = 0) := by
  induction pairs with
  | nil =>
    intro st rec
    simp [dedupFirst]
  | cons q rest ih =>
    intro st rec
    have step : dedupFirst st (q :: rest) = dedupFirst (addFileIfUnique st q.1 q.2) rest := rfl
    rw [step]
    unfold addFileIfUnique
    split
    · rename_i hseen
      rw [ih]
      constructor
      · rintro (h | ⟨hnp, hfind, hmt⟩)
        · exact Or.inl h
        · refine Or.inr ⟨hnp, ?_, hmt⟩
          have hne : (q.1 == rec.path) = false := by
            refine beq_eq_false_iff_ne.mpr ?_
            intro hcontra
            exact hnp (hcontra ▸ hseen)
          rw [List.find?_cons_of_neg _ (by simp [hne])]
          exact hfind
      · rintro (h | ⟨hnp, hfind, hmt⟩)
        · exact Or.inl h
        · have hne : (q.1 == rec.path) = false := by
            refine beq_eq_false_iff_ne.mpr ?_
            intro hcontra
            exact hnp (hcontra ▸ hseen)
          rw [List.find?_cons_of_neg _ (by simp [hne])] at hfind
          exact Or.inr ⟨hnp, hfind, hmt⟩
    · rename_i hnew
      rw [ih]
      constructor
      · rintro (h | ⟨hnp, hfind, hmt⟩)
        · simp only [List.mem_append, List.mem_singleton] at h
          rcases h with h | h
          · exact Or.inl h
          · subst h
            refine Or.inr ⟨hnew, ?_, rfl⟩
            simp [List.find?_cons_of_pos]
        · simp only [List.mem_cons] at hnp
          push_neg at hnp
          have hne : (q.1 == rec.path) = false :=
            beq_eq_false_iff_ne.mpr fun hcontra => hnp.1 hcontra.symm
          rw [List.find?_cons_of_neg _ (by simp [hne])]
          exact Or.inr ⟨hnp.2, hfind, hmt⟩
      · rintro (h | ⟨hnp, hfind, hmt⟩)
        · exact Or.inl (by simp [h])
        · by_cases hq : q.1 = rec.path
          · rw [List.find?_cons_of_pos _ (by simp [hq])] at hfind
            have h1 : q.1 = rec.path := hq
            have h2 : q.2 = rec.status := by
              have h3 : q = (rec.path, rec.status) := by simpa using hfind
              rw [h3]
            refine Or.inl ?_
            simp only [List.mem_append, List.mem_singleton]
            refine Or.inr ?_
            cases rec
            simp_all
          · rw [List.find?_cons_of_neg _ (by simp [beq_eq_false_iff_ne.mpr hq])] at hfind
            refine Or.inr ⟨?_, hfind, hmt⟩
            simp only [List.mem_cons, not_or]
            exact ⟨fun hcontra => hq hcontra.symm, hnp⟩

lemma dedupFirst_mem_mono (pairs : List (String × StatusKind)) (st : NormState)
    (rec : FileStatus) (h : rec ∈ st.fileList) :
    rec ∈ (dedupFirst st pairs).fileList :=
  (dedupFirst_mem_iff pairs st rec).mpr (Or.inl h)

lemma dedupFirst_covers (pairs : List (String × StatusKind)) :
    ∀ (st : NormState) (q : String × StatusKind), q ∈ pairs →
      q.1 ∈ (dedupFirst st pairs).fileList.map (fun f => f.path)
        ∨ q.1 ∈ st.uniquePaths := by
  induction pairs with
  | nil =>
    intro st q h
    cases h
  | cons hd rest ih =>
    intro st q hq
    have step : dedupFirst st (hd :: rest) = dedupFirst (addFileIfUnique st hd.1 hd.2) rest :=
      rfl
    rw [step]
    rcases List.mem_cons.mp hq with h | h
    · subst h
      by_cases hseen : q.1 ∈ st.uniquePaths
      · exact Or.inr hseen
      · refine Or.inl ?_
        have hmem : (⟨q.1, q.2, 0⟩ : FileStatus) ∈ (addFileIfUnique st q.1 q.2).fileList := by
          unfold addFileIfUnique
          rw [if_neg hseen]
          simp
        have := dedupFirst_mem_mono rest _ _ hmem
        exact List.mem_map.mpr ⟨⟨q.1, q.2, 0⟩, this, rfl⟩
    · rcases ih (addFileIfUnique st hd.1 hd.2) q h with h' | h'
      · exact Or.inl h'
      · unfold addFileIfUnique at h'
        by_cases hseen : hd.1 ∈ st.uniquePaths
        · rw [if_pos hseen] at h'
          exact Or.inr h'
        · rw [if_neg hseen] at h'
          rcases List.mem_cons.mp h' with h'' | h''
          · refine Or.inl ?_
            have hmem : (⟨hd.1, hd.2, 0⟩ : FileStatus)
                ∈ (addFileIfUnique st hd.1 hd.2).fileList := by
              unfold addFileIfUnique
              rw [if_neg hseen]
              simp
            have := dedupFirst_mem_mono rest _ _ hmem
            exact List.mem_map.mpr ⟨⟨hd.1, hd.2, 0⟩, this, h''.symm⟩
          · exact Or.inr h''

lemma find?_rawPairs_tuple (renamed : List RenamePair) (path : String) (k : StatusKind) :
    ∀ (files : List RawFile),
      (files.filterMap fun f =>
          (resolveStatus renamed f).map fun k => (f.path, k)).find?
            (fun q => q.1 == path) = some (path, k) →
      ∃ f, files.find?
            (fun f => f.path == path && (resolveStatus renamed f).isSome) = some f
          ∧ resolveStatus renamed f = some k := by
  intro files
  induction files with
  | nil =>
    intro h
    simp [List.find?] at h
  | cons f fs ih =>
    intro h
    cases hr : resolveStatus renamed f with
    | none =>
      rw [List.filterMap_cons] at h
      simp only [hr, Option.map_none'] at h
      obtain ⟨g, hg1, hg2⟩ := ih h
      refine ⟨g, ?_, hg2⟩
      rw [List.find?_cons_of_neg _ (by simp [hr])]
      exact hg1
    | some k' =>
      rw [List.filterMap_cons] at h
      simp only [hr, Option.map_some'] at h
      by_cases hp : f.path = path
      · rw [List.find?_cons_of_pos _ (by simp [hp])] at h
        have hk : k' = k := by
          have h2 : ((f.path, k') : String × StatusKind) = (path, k) := by simpa using h
          simpa using congrArg Prod.snd h2
        refine ⟨f, ?_, hk ▸ hr⟩
        rw [List.find?_cons_of_pos _ (by simp [hp, hr])]
      · rw [List.find?_cons_of_neg _ (by simp [hp])] at h
        obtain ⟨g, hg1, hg2⟩ := ih h
        refine ⟨g, ?_, hg2⟩
        rw [List.find?_cons_of_neg _ (by simp [hp])]
        exact hg1

/-- C2: both normalization paths keep at most one record per path, the
record kept for a path comes from the first raw entry that resolved for
that path (later entries for a seen path are ignored), and every resolved
raw entry's path is represented. -/
theorem c2_first_write_wins (status : StatusReport) :
    ((normalizeStatus status).map (fun f => f.path)).Nodup
    ∧ (∀ rec ∈ normalizeStatus status,
        (rawPairs status).find? (fun q => q.1 == rec.path)
            = some (rec.path, rec.status)
          ∧ rec.mtime = 0)
    ∧ (∀ q ∈ rawPairs status,
        q.1 ∈ (normalizeStatus status).map (fun f => f.path))
    ∧ (∀ files, status.files = some files →
        ∀ rec ∈ normalizeStatus status,
          ∃ f, files.find?
                (fun f => f.path == rec.path
                  && (resolveStatus status.renamed f).isSome) = some f
            ∧ resolveStatus status.renamed f = some rec.status) := by
  have hchar := dedupFirst_mem_iff (rawPairs status) ⟨[], []⟩
  have hnorm := normalizeStatus_eq_dedupFirst status
  refine ⟨?_, ?_, ?_, ?_⟩
  · rw [hnorm]
    exact (normInv_dedupFirst (rawPairs status) ⟨[], []⟩
      ⟨List.nodup_nil, by simp⟩).1
  · intro rec hrec
    rw [hnorm] at hrec
    rcases (hchar rec).mp hrec with h | ⟨_, hfind, hmt⟩
    · cases h
    · exact ⟨hfind, hmt⟩
  · intro q hq
    rw [hnorm]
    rcases dedupFirst_covers (rawPairs status) ⟨[], []⟩ q hq with h | h
    · exact h
    · cases h
  · intro files hfiles rec hrec
    rw [hnorm] at hrec
    rcases (hchar rec).mp hrec with h | ⟨_, hfind, _⟩
    · cases h
    · have : rawPairs status
          = files.filterMap fun f =>
              (resolveStatus status.renamed f).map fun k => (f.path, k) := by
        unfold rawPairs
        rw [hfiles]
      rw [this] at hfind
      exact find?_rawPairs_tuple status.renamed rec.path rec.status files hfind

theorem c2_first_write_wins_witness :
    (⟨"a.ts", StatusKind.unstaged, 0⟩ : FileStatus)
        ∈ normalizeStatus
            ⟨some [⟨" ", "M", "a.ts"⟩, ⟨"A", " ", "a.ts"⟩], [], [], [], [], []⟩
    ∧ (rawPairs ⟨some [⟨" ", "M", "a.ts"⟩, ⟨"A", " ", "a.ts"⟩], [], [], [], [], []⟩).find?
          (fun q => q.1 == "a.ts") = some ("a.ts", StatusKind.unstaged) := by
  have h : (⟨"a.ts", StatusKind.unstaged, 0⟩ : FileStatus)
      ∈ normalizeStatus
          ⟨some [⟨" ", "M", "a.ts"⟩, ⟨"A", " ", "a.ts"⟩], [], [], [], [], []⟩ := by
    decide
  exact ⟨h, ((c2_first_write_wins _).2.1 _ h).1⟩

/-- JS whitespace as matched by `\s` and stripped by `String.prototype.trim`
(restricted to the ASCII range, which is all that the status and name-status
reports can contain in the separator positions). -/
def isJsSpace (c : Char) : Bool :=
  c == ' ' || c == '\t' || c == '\n' || c == '\r' || c.toNat == 11 || c.toNat == 12

/-- JS `String.prototype.trim`. -/
def jsTrim (s : String) : String :=
  String.mk (((s.data.dropWhile isJsSpace).reverse.dropWhile isJsSpace).reverse)

/-- The injected collaborators of the git-utility module: the simple-git
status query, `revparse --show-toplevel`, the filesystem stat provider
(returning an mtime in milliseconds), the injected `path` module
(`isAbsolute`/`join`), and git grep.  A failed call is `Except.error`,
modelling a rejected promise. -/
structure GitEnv where
  statusResult : Except String StatusReport
  rootResult : Except String String
  stat : String → Except String Int
  isAbsolute : String → Bool
  join : String → String → String
  grep : String → List String → Except String String

/-- `getRepoRoot` (git.ts lines 199-207): trimmed toplevel, or `cwd` on
failure. -/
def getRepoRoot (env : GitEnv) (cwd : String) : String :=
  match env.rootResult with
  | .ok root => jsTrim root
  | .error _ => cwd

/-- The absolute path resolution of the enrichment step (git.ts line 133). -/
def absolutePathOf (isAbs : String → Bool) (join : String → String → String)
    (root : String) (p : String) : String :=
  if isAbs p then p else join root p

/-- The enrichment of a single record (git.ts lines 131-139): stat the
resolved path; on failure use epoch (`new Date(0)`). -/
def enrichOne (stat : String → Except String Int) (isAbs : String → Bool)
    (join : String → String → String) (root : String) (f : FileStatus) : FileStatus :=
  match stat (absolutePathOf isAbs join root f.path) with
  | .ok m => { f with mtime := m }
  | .error _ => { f with mtime := 0 }

/-- The `Promise.all` fan-out of the Metadata Enricher: every record is
enriched independently (each stat is awaited under its own try/catch, so
no rejection can escape and abort the batch). -/
def enrichAll (stat : String → Except String Int) (isAbs : String → Bool)
    (join : String → String → String) (root : String)
    (fileList : List FileStatus) : List FileStatus :=
  fileList.map (enrichOne stat isAbs join root)

/-- JS `String.prototype.localeCompare`, modelled as codepoint-lexicographic
three-way comparison (the sort only uses its sign). -/
def localeCompare (a b : String) : Int :=
  if a < b then -1 else if a = b then 0 else 1

/-- The comparator of the final sort of `getChangedFiles` (git.ts lines
143-151): mtime descending, ties by `localeCompare` on the path.  (`a.mtime
|| new Date(0)` is the identity: a JS `Date` object is always truthy.) -/
def fileCompare (a b : FileStatus) : Int :=
  let timeDiff := b.mtime - a.mtime
  if timeDiff ≠ 0 then timeDiff else localeCompare a.path b.path

/-- `a` may be placed before `b` by the comparator. -/
def fileLe (a b : FileStatus) : Bool :=
  decide (fileCompare a b ≤ 0)

/-- `Array.prototype.sort` with `fileCompare`: a stable comparison sort
(stable as required by ES2019), modelled by `mergeSort`. -/
def sortFiles (l : List FileStatus) : List FileStatus :=
  l.mergeSort fileLe

/-- The body of `getChangedFiles` up to the final return, with the `catch`
not yet applied. -/
def getChangedFilesCore (env : GitEnv) (cwd : String) : Except String (List FileStatus) :=
  match env.statusResult with
  | .error e => .error e
  | .ok status =>
    let root := getRepoRoot env cwd
    let fileList := normalizeStatus status
    let enriched := enrichAll env.stat env.isAbsolute env.join root fileList
    .ok (sortFiles enriched)

/-- `getChangedFiles` (git.ts lines 36-157): the whole pipeline under a
try/catch returning `[]` on any failure. -/
def getChangedFiles (env : GitEnv) (cwd : String) : List FileStatus :=
  match getChangedFilesCore env cwd with
  | .ok l => l
  | .error _ => []

/-- The ordering the claim describes: mtime descending, ties broken by path
ascending. -/
def snapshotOrder (a b : FileStatus) : Prop :=
  b.mtime < a.mtime ∨ (a.mtime = b.mtime ∧ a.path ≤ b.path)

lemma fileLe_iff (a b : FileStatus) : fileLe a b = true ↔ snapshotOrder a b := by
  unfold fileLe fileCompare localeCompare snapshotOrder
  simp only [decide_eq_true_eq]
  split
  · rename_i h
    constructor
    · intro h'
      exact Or.inl (by omega)
    · rintro (h' | ⟨h', _⟩)
      · omega
      · omega
  · rename_i h
    have hmt : b.mtime = a.mtime := by omega
    constructor
    · intro h'
      refine Or.inr ⟨hmt.symm, ?_⟩
      by_cases hlt : a.path < b.path
      · exact le_of_lt hlt
      · rw [if_neg hlt] at h'
        by_cases heq : a.path = b.path
        · exact le_of_eq heq
        · rw [if_neg heq] at h'
          omega
    · rintro (h' | ⟨_, h'⟩)
      · omega
      · by_cases hlt : a.path < b.path
        · rw [if_pos hlt]
          omega
        · have heq : a.path = b.path := le_antisymm h' (not_lt.mp hlt)
          rw [if_neg hlt, if_pos heq]
  
lemma fileLe_trans (a b c : FileStatus) (hab : fileLe a b) (hbc : fileLe b c) :
    fileLe a c := by
  rw [fileLe_iff] at *
  rcases hab with h1 | ⟨h1, h1'⟩ <;> rcases hbc with h2 | ⟨h2, h2'⟩
  · exact Or.inl (by omega)
  · exact Or.inl (by omega)
  · exact Or.inl (by omega)
  · exact Or.inr ⟨by omega, le_trans h1' h2'⟩

lemma fileLe_total (a b : FileStatus) : fileLe a b || fileLe b a := by
  rcases lt_trichotomy a.mtime b.mtime with h | h | h
  · have : fileLe b a := (fileLe_iff b a).mpr (Or.inl h)
    simp [this]
  · rcases le_total a.path b.path with hp | hp
    · have : fileLe a b := (fileLe_iff a b).mpr (Or.inr ⟨h, hp⟩)
      simp [this]
    · have : fileLe b a := (fileLe_iff b a).mpr (Or.inr ⟨h.symm, hp⟩)
      simp [this]
  · have : fileLe a b := (fileLe_iff a b).mpr (Or.inl h)
    simp [this]

lemma sortFiles_perm (l : List FileStatus) : List.Perm (sortFiles l) l :=
  List.mergeSort_perm l fileLe

lemma sortFiles_pairwise (l : List FileStatus) :
    (sortFiles l).Pairwise snapshotOrder := by
  have h := @List.sorted_mergeSort FileStatus fileLe
    (fun a b c hab hbc => fileLe_trans a b c hab hbc)
    (fun a b => fileLe_total a b) l
  exact h.imp fun hab => (fileLe_iff _ _).mp hab

/-- Two lists that are permutations of each other, both pairwise ordered by
a relation that is antisymmetric on their elements, are equal. -/
lemma eq_of_perm_of_pairwise {α : Type _} {r : α → α → Prop} :
    ∀ (l₁ l₂ : List α), List.Perm l₁ l₂ → l₁.Pairwise r → l₂.Pairwise r →
      (∀ a ∈ l₁, ∀ b ∈ l₁, r a b → r b a → a = b) → l₁ = l₂
  | [], l₂, hp, _, _, _ => hp.nil_eq
  | a :: t₁, l₂, hp, hs₁, hs₂, anti => by
    have ha : a ∈ l₂ := hp.subset (List.mem_cons_self a t₁)
    obtain ⟨u₂, v₂, rfl⟩ := List.append_of_mem ha
    have hp' : List.Perm t₁ (u₂ ++ v₂) := (List.perm_cons a).mp (hp.trans List.perm_middle)
    have hs₂' : (u₂ ++ v₂).Pairwise r :=
      hs₂.sublist ((List.sublist_cons_self a v₂).append_left u₂)
    have anti' : ∀ x ∈ t₁, ∀ y ∈ t₁, r x y → r y x → x = y := fun x hx y hy =>
      anti x (List.mem_cons_of_mem _ hx) y (List.mem_cons_of_mem _ hy)
    have heq : t₁ = u₂ ++ v₂ :=
      eq_of_perm_of_pairwise t₁ (u₂ ++ v₂) hp' (List.Pairwise.of_cons hs₁) hs₂' anti'
    have hall : ∀ x ∈ u₂, x = a := by
      intro x hx
      have hxt : x ∈ t₁ := heq ▸ List.mem_append_left v₂ hx
      have hrxa : r x a :=
        (List.pairwise_append.mp hs₂).2.2 x hx a (List.mem_cons_self a v₂)
      have hrax : r a x := List.rel_of_pairwise_cons hs₁ hxt
      exact anti x (List.mem_cons_of_mem _ hxt) a (List.mem_cons_self _ _) hrxa hrax
    have hu : u₂ = List.replicate u₂.length a := List.eq_replicate_of_mem hall
    rw [heq, hu]
    rw [show a :: (List.replicate u₂.length a ++ v₂)
          = (a :: List.replicate u₂.length a) ++ v₂ from rfl]
    rw [← List.replicate_succ, List.replicate_succ', List.append_assoc]
    simp

lemma sortFiles_deterministic (l₁ l₂ : List FileStatus) (hperm : List.Perm l₁ l₂)
    (hnd : (l₁.map (fun f => f.path)).Nodup) :
    sortFiles l₁ = sortFiles l₂ := by
  have hperm' : List.Perm (sortFiles l₁) (sortFiles l₂) :=
    (sortFiles_perm l₁).trans (hperm.trans (sortFiles_perm l₂).symm)
  refine eq_of_perm_of_pairwise _ _ hperm' (sortFiles_pairwise l₁)
    (sortFiles_pairwise l₂) ?_
  intro a ha b hb hab hba
  have ha' : a ∈ l₁ := (sortFiles_perm l₁).subset ha
  have hb' : b ∈ l₁ := (sortFiles_perm l₁).subset hb
  rcases hab with h1 | ⟨h1, h1'⟩ <;> rcases hba with h2 | ⟨h2, h2'⟩
  · omega
  · omega
  · omega
  · have hpath : a.path = b.path := le_antisymm h1' h2'
    have := List.inj_on_of_nodup_map hnd ha' hb' hpath
    exact this

/-- C3: every snapshot published by `getChangedFiles` is ordered by mtime
descending with ties broken by path ascending; the sort is a permutation of
its input; and on path-unique inputs (which is what the normalizer always
hands the sorter, by C2) the output ordering depends only on the input
multiset. -/
theorem c3_snapshot_sort :
    (∀ (env : GitEnv) (cwd : String),
      (getChangedFiles env cwd).Pairwise snapshotOrder)
    ∧ (∀ (l : List FileStatus), List.Perm (sortFiles l) l)
    ∧ (∀ (l₁ l₂ : List FileStatus), List.Perm l₁ l₂ →
        (l₁.map (fun f => f.path)).Nodup → sortFiles l₁ = sortFiles l₂) := by
  refine ⟨?_, sortFiles_perm, sortFiles_deterministic⟩
  intro env cwd
  unfold getChangedFiles getChangedFilesCore
  cases env.statusResult with
  | error e => simp
  | ok status => simpa using sortFiles_pairwise _

theorem c3_snapshot_sort_witness :
    List.Perm [(⟨"a", StatusKind.modified, 5⟩ : FileStatus), ⟨"b", StatusKind.new, 5⟩]
        [(⟨"b", StatusKind.new, 5⟩ : FileStatus), ⟨"a", StatusKind.modified, 5⟩]
    ∧ ((([(⟨"a", StatusKind.modified, 5⟩ : FileStatus), ⟨"b", StatusKind.new, 5⟩]).map
          (fun f => f.path)).Nodup)
    ∧ sortFiles [(⟨"a", StatusKind.modified, 5⟩ : FileStatus), ⟨"b", StatusKind.new, 5⟩]
        = sortFiles [(⟨"b", StatusKind.new, 5⟩ : FileStatus), ⟨"a", StatusKind.modified, 5⟩] := by
  have hperm : List.Perm
      [(⟨"a", StatusKind.modified, 5⟩ : FileStatus), ⟨"b", StatusKind.new, 5⟩]
      [(⟨"b", StatusKind.new, 5⟩ : FileStatus), ⟨"a", StatusKind.modified, 5⟩] :=
    List.Perm.swap _ _ _
  have hnd : ((([(⟨"a", StatusKind.modified, 5⟩ : FileStatus), ⟨"b", StatusKind.new, 5⟩]).map
      (fun f => f.path)).Nodup) := by decide
  exact ⟨hperm, hnd, c3_snapshot_sort.2.2 _ _ hperm hnd⟩

/-- The timer schedule of the git polling effect in `App` (the
`setInterval(async () => { await refresh(true) }, POLLING_INTERVAL)` call):
`setInterval` invokes its callback at every multiple of the interval after
arming, and never awaits the promise returned by the previous invocation,
so pipeline pass `k` (0-indexed) starts at time `(k+1) * interval` and
resolves `durations k` later.  (A busy event loop can only delay a start
further; nothing makes a start wait for the previous pass's promise.) -/
def passStart (interval : Nat) (k : Nat) : Nat :=
  (k + 1) * interval

/-- When pass `k` of the polling loop resolves, given its duration. -/
def passResolve (interval : Nat) (durations : Nat → Nat) (k : Nat) : Nat :=
  passStart interval k + durations k

/-- The claimed concurrency contract: pass `k+1` never starts before pass
`k` has fully resolved. -/
def ticksNeverOverlap (interval : Nat) (durations : Nat → Nat) : Prop :=
  ∀ k, passResolve interval durations k ≤ passStart interval (k + 1)

/-- C4 (refuting): with the shipped 2000 ms interval, a pipeline pass that
takes 3000 ms makes pass 1 start (t = 4000) before pass 0 resolves
(t = 5000) — the interval timer does not serialize the async passes, so
the claimed no-overlap contract fails. -/
theorem c4_polling_can_overlap :
    passStart 2000 1 < passResolve 2000 (fun _ => 3000) 0
    ∧ ¬ ticksNeverOverlap 2000 (fun _ => 3000) := by
  constructor
  · decide
  · intro h
    have := h 0
    simp [passStart, passResolve, ticksNeverOverlap] at this

/-- C5: if the status query fails — or the pipeline core fails anywhere —
`getChangedFiles` returns the empty list instead of propagating the
error. -/
theorem c5_failure_yields_empty :
    ∀ (env : GitEnv) (cwd : String),
      ((∃ e, env.statusResult = Except.error e) → getChangedFiles env cwd = [])
      ∧ (∀ e, getChangedFilesCore env cwd = Except.error e →
          getChangedFiles env cwd = []) := by
  intro env cwd
  constructor
  · rintro ⟨e, he⟩
    unfold getChangedFiles getChangedFilesCore
    rw [he]
  · intro e he
    unfold getChangedFiles
    rw [he]

theorem c5_failure_yields_empty_witness :
    (∃ e, (⟨Except.error "fatal: not a git repository", Except.error "fatal",
        fun _ => Except.error "ENOENT", fun _ => false, fun r p => r ++ p,
        fun _ _ => Except.error "grep"⟩ : GitEnv).statusResult = Except.error e)
    ∧ getChangedFiles
        ⟨Except.error "fatal: not a git repository", Except.error "fatal",
          fun _ => Except.error "ENOENT", fun _ => false, fun r p => r ++ p,
          fun _ _ => Except.error "grep"⟩ "/work" = [] := by
  refine ⟨⟨"fatal: not a git repository", rfl⟩, ?_⟩
  exact (c5_failure_yields_empty _ "/work").1 ⟨"fatal: not a git repository", rfl⟩

/-- C6: a stat failure for one record gives that record epoch mtime, the
batch is not aborted (same length, every record still enriched), and the
enrichment of any record depends only on the stat result for its own
resolved path. -/
theorem c6_enrichment_isolated :
    ∀ (stat : String → Except String Int) (isAbs : String → Bool)
      (join : String → String → String) (root : String)
      (l : List FileStatus) (i : Nat) (f : FileStatus) (e : String),
      l[i]? = some f →
      stat (absolutePathOf isAbs join root f.path) = Except.error e →
      (enrichAll stat isAbs join root l)[i]? = some { f with mtime := 0 }
      ∧ (enrichAll stat isAbs join root l).length = l.length
      ∧ (∀ (stat₂ : String → Except String Int) (j : Nat) (g : FileStatus),
          l[j]? = some g →
          stat₂ (absolutePathOf isAbs join root g.path)
              = stat (absolutePathOf isAbs join root g.path) →
          (enrichAll stat₂ isAbs join root l)[j]?
              = (enrichAll stat isAbs join root l)[j]?) := by
  intro stat isAbs join root l i f e hi hstat
  refine ⟨?_, by simp [enrichAll], ?_⟩
  · simp [enrichAll, List.getElem?_map, hi, enrichOne, hstat]
  · intro stat₂ j g hj hagree
    simp [enrichAll, List.getElem?_map, hj, enrichOne, hagree]

theorem c6_enrichment_isolated_witness :
    (([(⟨"a", StatusKind.modified, 7⟩ : FileStatus), ⟨"b", StatusKind.new, 7⟩])[0]?
        = some ⟨"a", StatusKind.modified, 7⟩)
    ∧ ((fun p => if p = "/r/a" then Except.error "ENOENT" else Except.ok (42 : Int))
        (absolutePathOf (fun _ => false) (fun r p => r ++ "/" ++ p) "/r" "a")
        = Except.error "ENOENT")
    ∧ (enrichAll (fun p => if p = "/r/a" then Except.error "ENOENT" else Except.ok (42 : Int))
          (fun _ => false) (fun r p => r ++ "/" ++ p) "/r"
          [⟨"a", StatusKind.modified, 7⟩, ⟨"b", StatusKind.new, 7⟩])[0]?
        = some ⟨"a", StatusKind.modified, 0⟩ := by
  refine ⟨rfl, rfl, ?_⟩
  exact (c6_enrichment_isolated
    (fun p => if p = "/r/a" then Except.error "ENOENT" else Except.ok (42 : Int))
    (fun _ => false) (fun r p => r ++ "/" ++ p) "/r"
    [⟨"a", StatusKind.modified, 7⟩, ⟨"b", StatusKind.new, 7⟩] 0
    ⟨"a", StatusKind.modified, 7⟩ "ENOENT" rfl rfl).1

/-- The `App` state touched by `refresh`. -/
structure AppState where
  allFiles : List FileStatus
  selectedIndex : Nat

/-- The snapshot-replacement step of `refresh` (App lines 37-41):
`setAllFiles(newFiles)` and, when the old selection index is out of range,
`setSelectedIndex(Math.max(0, newFiles.length - 1))`.  On naturals
`max 0 (m - 1)` agrees with the JS computation also at `m = 0`, where JS
evaluates `max(0, -1) = 0` and truncated subtraction gives `max 0 0 = 0`. -/
def refreshApply (st : AppState) (newFiles : List FileStatus) : AppState :=
  if st.selectedIndex ≥ newFiles.length then
    ⟨newFiles, max 0 (newFiles.length - 1)⟩
  else
    ⟨newFiles, st.selectedIndex⟩

/-- C7: replacing the snapshot clamps an out-of-range selection to
`max 0 (m - 1)` and leaves an in-range selection unchanged. -/
theorem c7_selection_clamp :
    ∀ (st : AppState) (newFiles : List FileStatus),
      (refreshApply st newFiles).allFiles = newFiles
      ∧ (st.selectedIndex ≥ newFiles.length →
          (refreshApply st newFiles).selectedIndex = max 0 (newFiles.length - 1))
      ∧ (st.selectedIndex < newFiles.length →
          (refreshApply st newFiles).selectedIndex = st.selectedIndex) := by
  intro st newFiles
  unfold refreshApply
  refine ⟨?_, ?_, ?_⟩ <;> split <;> simp_all

theorem c7_selection_clamp_witness :
    ((⟨[⟨"a", StatusKind.modified, 1⟩, ⟨"b", StatusKind.new, 2⟩], 5⟩ : AppState).selectedIndex
        ≥ ([(⟨"c", StatusKind.deleted, 3⟩ : FileStatus)]).length)
    ∧ (refreshApply ⟨[⟨"a", StatusKind.modified, 1⟩, ⟨"b", StatusKind.new, 2⟩], 5⟩
          [⟨"c", StatusKind.deleted, 3⟩]).selectedIndex
        = max 0 (([(⟨"c", StatusKind.deleted, 3⟩ : FileStatus)]).length - 1) := by
  refine ⟨by decide, ?_⟩
  exact (c7_selection_clamp ⟨[⟨"a", StatusKind.modified, 1⟩, ⟨"b", StatusKind.new, 2⟩], 5⟩
    [⟨"c", StatusKind.deleted, 3⟩]).2.1 (by decide)

/-- The shell-metacharacter strip of `searchFiles` (git.ts line 297):
removes backslash, backtick, dollar, parentheses, semicolon, pipe,
ampersand, angle brackets, braces and square brackets (given here by
codepoint). -/
def sanitizeTerm (s : String) : String :=
  String.mk (s.data.filter fun c =>
    ¬ c.toNat ∈ [92, 96, 36, 40, 41, 59, 124, 38, 60, 62, 123, 125, 91, 93])

/-- JS `String.prototype.split('\n')` on the character list. -/
def splitLinesAux : List Char → List (List Char)
  | [] => [[]]
  | c :: cs =>
    let rest := splitLinesAux cs
    if c = '\n' then [] :: rest
    else
      match rest with
      | [] => [[c]]
      | w :: ws => (c :: w) :: ws

/-- JS `result.split('\n')`. -/
def jsSplitNl (s : String) : List String :=
  (splitLinesAux s.data).map String.mk

/-- `searchFiles` (git.ts lines 286-325): blank/empty term or empty
candidate set short-circuits to `[]`; otherwise the trimmed, sanitized term
is handed to git grep over the candidate paths; a grep failure (including
the exit code 1 of "no matches") or an empty matched set yields `[]`, else
the candidates are filtered to the matched paths. -/
def searchFiles (grep : String → List String → Except String String)
    (searchTerm : String) (filesToSearch : List FileStatus) : List FileStatus :=
  if searchTerm = "" ∨ jsTrim searchTerm = "" ∨ filesToSearch.length = 0 then []
  else
    let trimmedTerm := jsTrim searchTerm
    let sanitizedTerm := sanitizeTerm trimmedTerm
    if sanitizedTerm = "" then []
    else
      match grep sanitizedTerm (filesToSearch.map fun f => f.path) with
      | .error _ => []
      | .ok result =>
        let matchedPaths := ((jsSplitNl result).map jsTrim).filter fun p => p ≠ ""
        if matchedPaths.length = 0 then []
        else filesToSearch.filter fun f => f.path ∈ matchedPaths

/-- The `filteredFiles` memo of `App` (lines 45-51): inactive search or a
blank query presents the full snapshot, otherwise the settled search
results (or `[]` while they are absent). -/
def filteredFiles (searchActive : Bool) (searchQuery : String)
    (allFiles : List FileStatus) (searchResults : Option (List FileStatus)) :
    List FileStatus :=
  if searchActive = false ∨ jsTrim searchQuery = "" then allFiles
  else searchResults.getD []

/-- C8: a blank query leaves the view equal to the full snapshot; a
non-blank query whose grep call fails or matches nothing produces an empty
search result and an empty filtered view, with no error escaping. -/
theorem c8_search_fallback :
    ∀ (grep : String → List String → Except String String) (q : String)
      (allFiles files : List FileStatus) (sa : Bool) (sr : Option (List FileStatus)),
      (jsTrim q = "" → filteredFiles sa q allFiles sr = allFiles)
      ∧ (jsTrim q ≠ "" →
          ((∃ e, grep (sanitizeTerm (jsTrim q)) (files.map fun f => f.path)
                = Except.error e)
           ∨ (∃ out, grep (sanitizeTerm (jsTrim q)) (files.map fun f => f.path)
                = Except.ok out
              ∧ ((jsSplitNl out).map jsTrim).filter (fun p => p ≠ "") = [])) →
          searchFiles grep q files = []
          ∧ filteredFiles true q allFiles (some (searchFiles grep q files)) = []) := by
  intro grep q allFiles files sa sr
  constructor
  · intro hblank
    unfold filteredFiles
    rw [if_pos (Or.inr hblank)]
  · intro hq hgrep
    have hsearch : searchFiles grep q files = [] := by
      unfold searchFiles
      split
      · rfl
      · dsimp only
        split
        · rfl
        · rcases hgrep with ⟨e, he⟩ | ⟨out, hout, hmatched⟩
          · rw [he]
          · rw [hout]
            dsimp only
            rw [hmatched]
            rfl
    refine ⟨hsearch, ?_⟩
    unfold filteredFiles
    rw [if_neg (by simp [hq]), hsearch]
    rfl

theorem c8_search_fallback_witness :
    jsTrim "x" ≠ ""
    ∧ (∃ e, (fun (_ : String) (_ : List String) => Except.error "grep failed")
          (sanitizeTerm (jsTrim "x"))
          (([(⟨"a", StatusKind.modified, 1⟩ : FileStatus)]).map fun f => f.path)
        = (Except.error e : Except String String))
    ∧ searchFiles (fun _ _ => Except.error "grep failed") "x"
        [⟨"a", StatusKind.modified, 1⟩] = []
    ∧ filteredFiles true "x" []
        (some (searchFiles (fun _ _ => Except.error "grep failed") "x"
          [⟨"a", StatusKind.modified, 1⟩])) = [] := by
  have hq : jsTrim "x" ≠ "" := by decide
  have h := (c8_search_fallback (fun (_ : String) (_ : List String) => Except.error "grep failed")
    "x" [] [⟨"a", StatusKind.modified, 1⟩] true none).2 hq
    (Or.inl ⟨"grep failed", rfl⟩)
  exact ⟨hq, ⟨"grep failed", rfl⟩, h.1, h.2⟩

/-- JS `trimmedLine.split(/\s+/)` specialised to trimmed input (no leading
or trailing whitespace): splits into maximal whitespace-free runs. -/
def splitWsGo : List Char → List Char → List (List Char)
  | [], acc => if acc = [] then [] else [acc.reverse]
  | c :: cs, acc =>
    if isJsSpace c then
      if acc = [] then splitWsGo cs []
      else acc.reverse :: splitWsGo cs []
    else splitWsGo cs (c :: acc)

/-- The whitespace-run split of a character list. -/
def splitWs (l : List Char) : List (List Char) :=
  splitWsGo l []

/-- JS `parts.join(' ')`. -/
def joinSpace : List (List Char) → List Char
  | [] => []
  | [w] => w
  | w :: ws => w ++ ' ' :: joinSpace ws

/-- `ChangedFile` of `git.ts`: the raw status code and the re-joined path. -/
structure ChangedFile where
  path : String
  status : String
deriving DecidableEq, Repr

/-- The per-line parse of `getFilesInCommit` (git.ts lines 379-395): trim,
split on whitespace runs, take the first token as the status and the rest
re-joined with single blanks as the path, keeping the record only when
both are non-empty. -/
def parseNameStatusLine (line : String) : Option ChangedFile :=
  let trimmedLine := jsTrim line
  if trimmedLine = "" then none
  else
    let parts := splitWs trimmedLine.data
    if parts.length ≥ 2 then
      let statusCode := String.mk (parts.headD [])
      let filePath := String.mk (joinSpace (parts.drop 1))
      if statusCode ≠ "" ∧ filePath ≠ "" then some ⟨filePath, statusCode⟩
      else none
    else none

/-- `getFilesInCommit` (git.ts lines 368-402): split the raw name+status
report into lines, drop blank lines, parse each; `[]` when the show
command fails. -/
def getFilesInCommit (showResult : Except String String) : List ChangedFile :=
  match showResult with
  | .error _ => []
  | .ok result =>
    ((jsSplitNl result).filter fun line => jsTrim line ≠ "").filterMap
      parseNameStatusLine

/-- The streamlined per-line behaviour: first whitespace token is the
status, the remaining tokens re-joined with single blanks are the path. -/
def specLineParse (line : String) : Option ChangedFile :=
  match splitWs (jsTrim line).data with
  | s :: p :: rest => some ⟨String.mk (joinSpace (p :: rest)), String.mk s⟩
  | _ => none

/-- The original text of a trimmed line after its first whitespace-free
token and the whitespace run following that token — what the claim asserts
is preserved as the parsed path. -/
def textAfterFirstToken (line : String) : String :=
  String.mk (((jsTrim line).data.dropWhile fun c => ¬ isJsSpace c).dropWhile isJsSpace)

lemma mem_splitWsGo_ne_nil :
    ∀ (l : List Char) (acc : List Char) (w : List Char),
      w ∈ splitWsGo l acc → w ≠ [] := by
  intro l
  induction l with
  | nil =>
    intro acc w hw
    unfold splitWsGo at hw
    split at hw
    · cases hw
    · rename_i hacc
      rw [List.mem_singleton] at hw
      subst hw
      simpa using hacc
  | cons c cs ih =>
    intro acc w hw
    unfold splitWsGo at hw
    split at hw
    · split at hw
      · exact ih [] w hw
      · rename_i hacc
        rcases List.mem_cons.mp hw with h | h
        · subst h
          simpa using hacc
        · exact ih [] w h
    · exact ih (c :: acc) w hw

lemma joinSpace_ne_nil (w : List Char) (ws : List (List Char)) (hw : w ≠ []) :
    joinSpace (w :: ws) ≠ [] := by
  cases ws with
  | nil => simpa [joinSpace] using hw
  | cons w' ws' =>
    simp only [joinSpace]
    intro hcontra
    exact hw (List.append_eq_nil.mp hcontra).1

lemma parseNameStatusLine_eq_specLineParse (line : String)
    (h : jsTrim line ≠ "") : parseNameStatusLine line = specLineParse line := by
  unfold parseNameStatusLine specLineParse
  dsimp only
  rw [if_neg h]
  cases hp : splitWs (jsTrim line).data with
  | nil => simp
  | cons s rest =>
    cases rest with
    | nil => simp
    | cons p rest' =>
      have hs : s ≠ [] := mem_splitWsGo_ne_nil _ _ s (hp ▸ List.mem_cons_self _ _)
      have hpne : p ≠ [] :=
        mem_splitWsGo_ne_nil _ _ p
          (hp ▸ List.mem_cons_of_mem _ (List.mem_cons_self _ _))
      have hstat : String.mk ((s :: p :: rest').headD []) ≠ "" := by
        simpa [String.ext_iff] using hs
      have hpath : String.mk (joinSpace ((s :: p :: rest').drop 1)) ≠ "" := by
        simpa [String.ext_iff] using joinSpace_ne_nil p rest' hpne
      rw [if_pos (by simp : (s :: p :: rest').length ≥ 2),
        if_pos ⟨hstat, hpath⟩]
      simp

lemma filterMap_parse_eq_specLineParse (lines : List String) :
    (lines.filter fun line => jsTrim line ≠ "").filterMap parseNameStatusLine
      = lines.filterMap specLineParse := by
  induction lines with
  | nil => rfl
  | cons l ls ih =>
    rw [List.filter_cons]
    by_cases hb : jsTrim l = ""
    · have hdata : (jsTrim l).data = [] := by rw [hb]
      have hspec : specLineParse l = none := by
        unfold specLineParse
        rw [hdata]
        rfl
      rw [if_neg (by simp [hb]), List.filterMap_cons_none hspec]
      exact ih
    · have hparse := parseNameStatusLine_eq_specLineParse l hb
      rw [if_pos (by simp [hb])]
      cases hsp : specLineParse l with
      | none =>
        rw [List.filterMap_cons_none (hparse.trans hsp),
          List.filterMap_cons_none hsp]
        exact ih
      | some v =>
        rw [List.filterMap_cons_some (hparse.trans hsp),
          List.filterMap_cons_some hsp, ih]

/-- C9 (amended behaviour): dropping the redundant truthiness checks, each
non-blank line parses to (first token, remaining tokens re-joined with
single blanks); lines with fewer than two tokens are skipped. -/
theorem c9_name_status_parse :
    (∀ (result : String),
      getFilesInCommit (Except.ok result) = (jsSplitNl result).filterMap specLineParse)
    ∧ (∀ (line : String) (s p : List Char) (rest : List (List Char)),
        splitWs (jsTrim line).data = s :: p :: rest →
        parseNameStatusLine line
          = some ⟨String.mk (joinSpace (p :: rest)), String.mk s⟩)
    ∧ (∀ (line : String), (splitWs (jsTrim line).data).length < 2 →
        parseNameStatusLine line = none) := by
  refine ⟨?_, ?_, ?_⟩
  · intro result
    exact filterMap_parse_eq_specLineParse (jsSplitNl result)
  · intro line s p rest hsplit
    have hne : jsTrim line ≠ "" := by
      intro hcontra
      have hdata : (jsTrim line).data = [] := by rw [hcontra]
      rw [hdata] at hsplit
      simp [splitWs, splitWsGo] at hsplit
    rw [parseNameStatusLine_eq_specLineParse line hne]
    unfold specLineParse
    rw [hsplit]
  · intro line hlen
    by_cases hb : jsTrim line = ""
    · unfold parseNameStatusLine
      rw [if_pos hb]
    · rw [parseNameStatusLine_eq_specLineParse line hb]
      unfold specLineParse
      cases hp : splitWs (jsTrim line).data with
      | nil => rfl
      | cons s rest =>
        cases rest with
        | nil => rfl
        | cons p rest' =>
          rw [hp] at hlen
          exact absurd hlen (by simp)

theorem c9_name_status_parse_witness :
    splitWs (jsTrim "M a  b.txt").data
        = [['M'], ['a'], ['b', '.', 't', 'x', 't']]
    ∧ parseNameStatusLine "M a  b.txt"
        = some ⟨"a b.txt", "M"⟩ := by
  have hsplit : splitWs (jsTrim "M a  b.txt").data
      = [['M'], ['a'], ['b', '.', 't', 'x', 't']] := by decide
  refine ⟨hsplit, ?_⟩
  have h := c9_name_status_parse.2.1 "M a  b.txt" ['M'] ['a']
    [['b', '.', 't', 'x', 't']] hsplit
  simpa using h

/-- C9 (counterexample to the preservation parenthetical): in the line
`"M a  b.txt"` the original text after the status token is `"a  b.txt"`,
but the parsed path is `"a b.txt"` — the split/re-join collapses the
internal double blank, so the original path text is not preserved. -/
theorem c9_path_text_not_preserved :
    (getFilesInCommit (Except.ok "M a  b.txt")).map (fun f => f.path) = ["a b.txt"]
    ∧ textAfterFirstToken "M a  b.txt" = "a  b.txt"
    ∧ ("a b.txt" : String) ≠ "a  b.txt" := by
  refine ⟨by decide, by decide, by decide⟩

/-- A raw commit entry as returned by the log provider. -/
structure LogEntry where
  hash : String
  message : String
  author_name : String
  date : String
deriving DecidableEq, Repr

/-- The mapped `CommitInfo` of `git.ts` (lines 339-344). -/
structure CommitInfo where
  hash : String
  message : String
  author : String
  date : String
deriving DecidableEq, Repr

/-- The options object built by `getCommitHistory` (git.ts line 349):
`limit ? { maxCount: limit } : {}` — a missing limit and the falsy limit 0
both produce an options object without `maxCount`. -/
def logOptionsMaxCount (limit : Option Nat) : Option Nat :=
  match limit with
  | some n => if n = 0 then none else some n
  | none => none

/-- The log provider contract (`git.log`): with `maxCount` it returns at
most that many leading entries of the full log, without it the full log. -/
def gitLog (allCommits : List LogEntry) (maxCount : Option Nat) : List LogEntry :=
  match maxCount with
  | some n => allCommits.take n
  | none => allCommits

/-- `getCommitHistory` (git.ts lines 346-361): query the log with the
computed options and map each entry to a `CommitInfo` with the hash
truncated to its first 7 characters (`hash.substring(0, 7)`). -/
def getCommitHistory (allCommits : List LogEntry) (limit : Option Nat) :
    List CommitInfo :=
  (gitLog allCommits (logOptionsMaxCount limit)).map fun c =>
    ⟨c.hash.take 7, c.message, c.author_name, c.date⟩

/-- C10: a limit of 0 is falsy, so no `maxCount` is passed and the full
log is requested, exactly as when the limit is omitted; only a nonzero
limit restricts the result. -/
theorem c10_zero_limit_unbounded :
    (logOptionsMaxCount (some 0) = none ∧ logOptionsMaxCount none = none)
    ∧ (∀ (allCommits : List LogEntry),
        getCommitHistory allCommits (some 0) = getCommitHistory allCommits none
        ∧ (getCommitHistory allCommits (some 0)).length = allCommits.length)
    ∧ (∀ (allCommits : List LogEntry) (n : Nat), n ≠ 0 →
        getCommitHistory allCommits (some n)
          = (allCommits.take n).map fun c =>
              ⟨c.hash.take 7, c.message, c.author_name, c.date⟩) := by
  refine ⟨⟨rfl, rfl⟩, ?_, ?_⟩
  · intro allCommits
    exact ⟨rfl, by simp [getCommitHistory, gitLog, logOptionsMaxCount]⟩
  · intro allCommits n hn
    simp [getCommitHistory, gitLog, logOptionsMaxCount, hn]

theorem c10_zero_limit_unbounded_witness :
    (2 : Nat) ≠ 0
    ∧ getCommitHistory
        [⟨"abcdef1234567890", "m1", "a1", "d1"⟩, ⟨"1111111", "m2", "a2", "d2"⟩,
          ⟨"2222222", "m3", "a3", "d3"⟩] (some 2)
      = ([(⟨"abcdef1234567890", "m1", "a1", "d1"⟩ : LogEntry), ⟨"1111111", "m2", "a2", "d2"⟩,
          ⟨"2222222", "m3", "a3", "d3"⟩].take 2).map (fun c =>
            ⟨c.hash.take 7, c.message, c.author_name, c.date⟩) := by
  refine ⟨by decide, ?_⟩
  exact c10_zero_limit_unbounded.2.2
    [⟨"abcdef1234567890", "m1", "a1", "d1"⟩, ⟨"1111111", "m2", "a2", "d2"⟩,
      ⟨"2222222", "m3", "a3", "d3"⟩] 2 (by decide)
